import Mathlib

/-!
Verification of the pagong static site generator sources
(`src/main.rs`, `src/blog.rs`) against their natural-language
specification.

The Rust code is shallowly embedded: strings are modelled as `List Char`
(with explicit UTF-8 byte accounting where the Rust code indexes by
bytes), paths as lists of components, the filesystem as an association
list from paths to entries, and panics/IO errors as `Except` values.
-/

set_option autoImplicit false

namespace Pagong

/-- Panic outcomes of the embedded Rust code. -/
inductive RPanic where
  /-- A string slice operation out of bounds or off a char boundary. -/
  | slice
  /-- `Option::unwrap` / `Result::unwrap` on a `None` / `Err` value. -/
  | unwrap
  /-- The `todo!()` macro in `Scan::execute`. -/
  | todoUnimplemented
  /-- Worklist fuel exhausted (unreachable; see `scanLoop`). -/
  | fuelOut
deriving DecidableEq, Repr

/-! ## UTF-8 byte accounting for Rust `str` operations

Rust indexes strings by bytes and panics on slices that are out of
bounds or not on a character boundary.  We model the text as `List Char`
and account bytes with `Char.utf8Size`. -/

/-- Total number of UTF-8 bytes of a character list. -/
def utf8Len (cs : List Char) : Nat :=
  cs.foldr (fun c n => c.utf8Size + n) 0

/-- Drop the first `n` bytes; `none` when `n` is past the end or not on a
character boundary (a Rust slice panic). -/
def dropBytes : List Char → Nat → Option (List Char)
  | cs, 0 => some cs
  | [], _ + 1 => none
  | c :: cs, n + 1 =>
    if c.utf8Size ≤ n + 1 then dropBytes cs (n + 1 - c.utf8Size) else none

/-- Take the first `n` bytes; `none` when `n` is past the end or not on a
character boundary (a Rust slice panic). -/
def takeBytes : List Char → Nat → Option (List Char)
  | _, 0 => some []
  | [], _ + 1 => none
  | c :: cs, n + 1 =>
    if c.utf8Size ≤ n + 1 then (takeBytes cs (n + 1 - c.utf8Size)).map (c :: ·)
    else none

/-- Whether byte offset `n` is a character boundary of the text (offsets
past the end count as non-boundaries). -/
def isByteBoundary : List Char → Nat → Bool
  | _, 0 => true
  | [], _ + 1 => false
  | c :: cs, n + 1 =>
    if c.utf8Size ≤ n + 1 then isByteBoundary cs (n + 1 - c.utf8Size) else false

/-- Rust `&s[i..j]`: `none` models the slice panic (`i > j`, out of
bounds, or off a character boundary). -/
def byteSlice (cs : List Char) (i j : Nat) : Option (List Char) :=
  if j < i then none
  else (dropBytes cs i).bind (fun r => takeBytes r (j - i))

/-- Rust `str::find(needle)`: byte index of the first occurrence.  All
needles used by the sources are ASCII, for which character-level matching
coincides with Rust's byte-level matching. -/
def findSubByte : List Char → List Char → Option Nat
  | [], needle => if needle.isEmpty then some 0 else none
  | c :: cs, needle =>
    if needle.isPrefixOf (c :: cs) then some 0
    else (findSubByte cs needle).map (· + c.utf8Size)

/-- Split at the first occurrence of a character: Rust
`line.find(ch)` followed by `&line[..i]` / `&line[i+1..]`. -/
def splitAtFirst (needle : Char) : List Char → Option (List Char × List Char)
  | [] => none
  | c :: cs =>
    if c = needle then some ([], cs)
    else (splitAtFirst needle cs).map (fun p => (c :: p.1, p.2))

/-- The Unicode `White_Space` code points, as used by Rust
`char::is_whitespace` (hence `str::trim`). -/
def isWs (c : Char) : Bool :=
  c.toNat ∈ [0x09, 0x0A, 0x0B, 0x0C, 0x0D, 0x20, 0x85, 0xA0, 0x1680,
    0x2000, 0x2001, 0x2002, 0x2003, 0x2004, 0x2005, 0x2006, 0x2007,
    0x2008, 0x2009, 0x200A, 0x2028, 0x2029, 0x202F, 0x205F, 0x3000]

/-- Rust `str::trim`: remove leading and trailing whitespace. -/
def rustTrim (cs : List Char) : List Char :=
  ((cs.dropWhile isWs).reverse.dropWhile isWs).reverse

/-- Rust `str::lines`: split on `'\n'`, dropping a final empty piece,
and strip one trailing `'\r'` from each line. -/
def splitChar (sep : Char) : List Char → List (List Char)
  | [] => [[]]
  | c :: cs =>
    let r := splitChar sep cs
    if c = sep then [] :: r
    else match r with
      | [] => [[c]]
      | l :: ls => (c :: l) :: ls

/-- Strip one trailing `'\r'` (helper for `rustLines`). -/
def stripCR (cs : List Char) : List Char :=
  match cs.reverse with
  | '\r' :: rest => rest.reverse
  | _ => cs

/-- Rust `str::lines`. -/
def rustLines (cs : List Char) : List (List Char) :=
  if cs.isEmpty then []
  else
    let ps := splitChar '\n' cs
    let ps := if cs.getLast? = some '\n' then ps.dropLast else ps
    ps.map stripCR

/-- ASCII lower-casing of one character (Rust `eq_ignore_ascii_case`). -/
def asciiLower (c : Char) : Char :=
  if 'A' ≤ c ∧ c ≤ 'Z' then Char.ofNat (c.toNat + 32) else c

/-- Rust `str::eq_ignore_ascii_case`. -/
def eqIgnoreAsciiCase (a b : List Char) : Bool :=
  a.map asciiLower = b.map asciiLower

/-! ## Paths

`PathBuf` is modelled as its list of components.  `pathPush` models
`PathBuf::push` with an arbitrary string argument (splitting on `/`);
`pathJoin` models `Path::join` with a single-component argument
(file stems and file names contain no separator). -/

/-- A filesystem path, as its list of components. -/
abbrev Path := List String

/-- `PathBuf::push` with a string that may hold several components.
An absolute argument (leading `/`) replaces the whole path. -/
def pathPush (p : Path) (s : String) : Path :=
  let comps := ((splitChar '/' s.data).filter (fun c => !c.isEmpty)).map
    (fun cs => (⟨cs⟩ : String))
  if s.data.headD ' ' = '/' then comps else p ++ comps

/-- `Path::join` with a single component (a file stem or file name). -/
def pathJoin (p : Path) (c : String) : Path := p ++ [c]

/-- Rust `Path::file_stem` on one file name: the part before the last
`'.'`, except that a leading `'.'` does not start an extension. -/
def stemOfName (n : String) : String :=
  match splitAtFirst '.' n.data.reverse with
  | some (_, revStem) => if revStem.isEmpty then n else ⟨revStem.reverse⟩
  | none => n

/-- Rust `Path::file_name` (last component). -/
def pathFileName (p : Path) : Option String := p.getLast?

/-- Rust `Path::file_stem` of a path. -/
def pathFileStem (p : Path) : Option String :=
  (pathFileName p).map stemOfName

/-! ## Front matter parsing (`MdFile::new`, src/main.rs lines 107-166)

The body of `MdFile::new` after `fs::read_to_string`: recognize the
`+++\n` opening fence via the unconditional byte slice `&contents[..4]`,
find the closing `\n+++`, and parse `key = value` lines in between. -/

/-- The raw metadata map (`HashMap<String, String>`); insertion
overwrites, lookup returns the stored value. -/
abbrev MetaMap := List (List Char × List Char)

/-- `HashMap::insert` (later inserts overwrite earlier ones). -/
def metaInsert (m : MetaMap) (k v : List Char) : MetaMap :=
  (k, v) :: m.filter (fun e => !(e.1 == k))

/-- `HashMap::get`. -/
def metaGet (m : MetaMap) (k : List Char) : Option (List Char) :=
  (m.find? (fun e => e.1 == k)).map (·.2)

/-- One iteration of the metadata line loop (src/main.rs lines 116-130):
blank lines are skipped, lines without `=` are reported and skipped,
otherwise both sides of the first `=` are trimmed and inserted. -/
def mdMetaLine (m : MetaMap) (line : List Char) : MetaMap :=
  if (rustTrim line).isEmpty then m
  else match splitAtFirst '=' line with
    | none => m   -- eprintln "metadata line without value", continue
    | some (before, after) => metaInsert m (rustTrim before) (rustTrim after)

/-- Front-matter extraction from the full file text (src/main.rs lines
108-137): returns the metadata map and `md_offset`.  `Except.error`
models a Rust panic (the unconditional `&contents[..4]` slice, and the
`&contents[4..end_index]` slice). -/
def mdParseMeta (contents : List Char) : Except RPanic (MetaMap × Nat) :=
  match takeBytes contents 4 with
  | none => .error .slice                 -- &contents[..4] panics
  | some opening =>
    if opening = "+++\n".data then
      match findSubByte contents "\n+++".data with
      | some endIndex =>
        match byteSlice contents 4 endIndex with
        | none => .error .slice           -- &contents[4..end_index] panics
        | some inner =>
          .ok ((rustLines inner).foldl mdMetaLine [], endIndex + 4)
      | none =>
        -- eprintln "md file with unclosed metadata"
        .ok ([], utf8Len contents)
    else
      -- eprintln "md file without metadata"
      .ok ([], 0)

/-- The `tags` field of `MdFile` (src/main.rs lines 147-150):
comma-separated, each entry trimmed; absent key gives the empty list. -/
def mdTags (m : MetaMap) : List (List Char) :=
  match metaGet m "tags".data with
  | some s => (splitChar ',' s).map rustTrim
  | none => []

/-- The `template` field of `MdFile` (src/main.rs lines 151-161): a value
with a leading `/` is pushed (without the slash) onto the source root,
any other value is pushed onto the document's own path. -/
def mdTemplate (root : Path) (path : Path) (m : MetaMap) : Option Path :=
  (metaGet m "template".data).map (fun s =>
    if s.headD ' ' = '/' then pathPush root ⟨s.drop 1⟩
    else pathPush path ⟨s⟩)

/-! ## Date resolution (`parse_opt_date`, src/main.rs lines 62-104)

`NaiveDate` values are represented symbolically: the code only
constructs them from a parsed string, from an epoch timestamp, or as
today's date.  `SystemTime` is an `Int` count of seconds relative to the
Unix epoch (Unix file times may precede the epoch).  chrono's
`NaiveDate::parse_from_str` lives outside this repository and is taken
as a boolean oracle `chronoParses`. -/

/-- A resolved date, by provenance. -/
inductive DateVal where
  /-- Parsed from the declared front-matter string. -/
  | fromStr (s : List Char)
  /-- Converted from epoch seconds (`NaiveDateTime::from_timestamp`). -/
  | fromTs (t : Int)
  /-- `chrono::Local::today`. -/
  | today
deriving DecidableEq, Repr

/-- Outcome of `fs::metadata(path)` followed by `.created()` /
`.modified()`: each timestamp either is available or errs. -/
structure FsMetaInfo where
  created : Except Unit Int
  modified : Except Unit Int
deriving Repr

instance {ε α : Type} [DecidableEq ε] [DecidableEq α] : DecidableEq (Except ε α)
  | .ok a, .ok b => if h : a = b then isTrue (by rw [h]) else isFalse (by simp [h])
  | .ok _, .error _ => isFalse (by simp)
  | .error _, .ok _ => isFalse (by simp)
  | .error a, .error b => if h : a = b then isTrue (by rw [h]) else isFalse (by simp [h])

/-- The Rust `as u64 as i64`-style cast in
`duration_since(UNIX_EPOCH).unwrap().as_secs() as i64`. -/
def castI64 (n : Nat) : Int :=
  let m : Nat := n % 2 ^ 64
  if m < 2 ^ 63 then Int.ofNat m else Int.ofNat m - 2 ^ 64

/-- `SystemTime::duration_since(UNIX_EPOCH)` yields the second count
when the time is at or after the epoch and errs otherwise; the source
calls `.unwrap()` on it, panicking on the error. -/
def durationSinceEpochSecs (t : Int) : Except Unit Nat :=
  if 0 ≤ t then .ok t.toNat else .error ()

/-- `parse_opt_date` (src/main.rs lines 62-104).  `chronoParses` is the
external chrono date parser for `DATE_FMT`, `meta` the outcome of
`fs::metadata` (`none` models an `Err`).  `Except.error` models the
panic of `duration_since(UNIX_EPOCH).unwrap()`. -/
def parse_opt_date (chronoParses : List Char → Bool) (meta : Option FsMetaInfo)
    (created : Bool) (declared : Option (List Char)) : Except RPanic DateVal :=
  match declared with
  | some s =>
    if chronoParses s then .ok (.fromStr s)
    else fsDateFallback meta created  -- eprintln "invalid date value", fall through
  | none => fsDateFallback meta created
where
  /-- The filesystem part (lines 71-103): metadata timestamp when
  available, otherwise today's local date. -/
  fsDateFallback (meta : Option FsMetaInfo) (created : Bool) : Except RPanic DateVal :=
    match meta with
    | some m =>
      match (if created then m.created else m.modified) with
      | .ok t =>
        match durationSinceEpochSecs t with
        | .ok secs => .ok (.fromTs (castI64 secs))
        | .error _ => .error .unwrap   -- duration_since(UNIX_EPOCH).unwrap()
      | .error _ => .ok .today  -- eprintln, falls through to Local::today
    | none => .ok .today        -- eprintln "failed to fetch metadata"

/-! ## Directory scan (`Scan::new`, src/main.rs lines 180-234)

The source tree is given as data.  The worklist (`pending`) holds each
directory together with its listing; `Vec::push`/`Vec::pop` is a stack,
modelled by consing.  The date fields of `MdFile` come from
`parse_opt_date` (modelled above, independent of the scan) and do not
affect any of the scan's classifications, so the per-file record kept
here holds the path, metadata, body offset and resolved template. -/

/-- A source-tree entry: a directory with its children, or a file with
its text content. -/
inductive FsTree where
  | dirT (name : String) (children : List FsTree)
  | fileT (name : String) (contents : String)

mutual
/-- Node count of a tree (termination measure). -/
def treeSize : FsTree → Nat
  | .fileT _ _ => 1
  | .dirT _ cs => 1 + forestSize cs
/-- Node count of a forest. -/
def forestSize : List FsTree → Nat
  | [] => 0
  | t :: ts => treeSize t + forestSize ts
end

/-- The parsed `MdFile` fields relevant to the scan. -/
structure MdDoc where
  path : Path
  meta : MetaMap
  mdOffset : Nat
  template : Option Path

/-- `MdFile::new` (src/main.rs lines 107-166), without the date fields. -/
def mdDocNew (root : Path) (path : Path) (contents : String) :
    Except RPanic MdDoc :=
  (mdParseMeta contents.data).map (fun r =>
    { path := path, meta := r.1, mdOffset := r.2
      template := mdTemplate root path r.1 })

/-- Extension of a file name (src/main.rs lines 204-208): the part after
the last `'.'`, empty when there is no dot. -/
def extOfName (n : List Char) : List Char :=
  if n.contains '.' then (n.reverse.takeWhile (· ≠ '.')).reverse else []

/-- The mutable scan state built by `Scan::new`, plus the local
`templates` set (`html_templates` is never filled by `Scan::new` and is
omitted). -/
structure ScanAcc where
  source : Path
  destination : Path
  dirs_to_create : List Path
  files_to_copy : List Path
  css_files : List Path
  md_files : List MdDoc
  templates : List Path

/-- Classification of one directory entry (the body of the `read_dir`
loop, src/main.rs lines 197-225), without the worklist push. -/
def classifyEntry (acc : ScanAcc) (dirPath : Path) : FsTree → Except RPanic ScanAcc
  | .dirT name _ =>
    .ok { acc with dirs_to_create := acc.dirs_to_create ++ [dirPath ++ [name]] }
  | .fileT name contents =>
    let p := dirPath ++ [name]
    let ext := extOfName name.data
    let acc :=
      if eqIgnoreAsciiCase ext "css".data then
        { acc with css_files := acc.css_files ++ [p] }
      else acc
    if !eqIgnoreAsciiCase ext "md".data then
      .ok { acc with files_to_copy := acc.files_to_copy ++ [p] }
    else
      (mdDocNew acc.source p contents).map (fun md =>
        { acc with
          md_files := acc.md_files ++ [md]
          templates := match md.template with
            | some t => if acc.templates.contains t then acc.templates
                        else acc.templates ++ [t]
            | none => acc.templates })

/-- Classify every entry of one directory, left to right, propagating
the first panic. -/
def classifyEntries (acc : ScanAcc) (dirPath : Path) :
    List FsTree → Except RPanic ScanAcc
  | [] => .ok acc
  | e :: es => (classifyEntry acc dirPath e).bind (fun a => classifyEntries a dirPath es)

/-- Subdirectories of a listing, paired with their own listings, in
`read_dir` order — the items pushed onto the worklist. -/
def subdirsOf (dirPath : Path) (es : List FsTree) : List (Path × List FsTree) :=
  es.filterMap (fun t => match t with
    | .dirT n cs => some (dirPath ++ [n], cs)
    | .fileT _ _ => none)

/-- Termination measure of the worklist. -/
def pendMeasure : List (Path × List FsTree) → Nat
  | [] => 0
  | (_, es) :: r => 1 + forestSize es + pendMeasure r

/-- The `while let Some(src) = pending.pop()` loop of `Scan::new`.
`fuel` bounds the number of pops; `pendMeasure` strictly decreases with
every pop (`pendMeasure_step` below), so the initial fuel chosen by
`scanNew` makes the `.fuelOut` branch unreachable
(`scanLoop_no_fuelOut`). -/
def scanLoop : Nat → List (Path × List FsTree) → ScanAcc → Except RPanic ScanAcc
  | _, [], acc => .ok acc
  | 0, _ :: _, _ => .error .fuelOut
  | fuel + 1, (dirPath, es) :: rest, acc =>
    (classifyEntries acc dirPath es).bind (fun acc =>
      scanLoop fuel ((subdirsOf dirPath es).reverse ++ rest) acc)

/-- `Scan::new` (src/main.rs lines 180-234): the full traversal followed
by the second pass `files_to_copy.retain(|path| templates.contains(path))`
(src/main.rs lines 229-231). -/
def scanNew (src dst : Path) (srcEntries : List FsTree) : Except RPanic ScanAcc :=
  let init : ScanAcc :=
    { source := src, destination := dst, dirs_to_create := []
      files_to_copy := [], css_files := [], md_files := [], templates := [] }
  (scanLoop (pendMeasure [(src, srcEntries)]) [(src, srcEntries)] init).map
    (fun acc =>
      { acc with files_to_copy :=
          acc.files_to_copy.filter (fun p => acc.templates.contains p) })

/-! ## `Scan::execute` and `main` (src/main.rs lines 241-261)

`Scan::execute` is `todo!()`: it unconditionally panics.  `main` builds
the two roots, runs `Scan::new` and then `execute`.  The model records
the filesystem actions a run performs; scanning only reads. -/

/-- `Scan::execute` (src/main.rs lines 241-243): `todo!()`. -/
def scanExecute (_ : ScanAcc) : Except RPanic Unit :=
  .error .todoUnimplemented

/-- How a run of `main` ends. -/
inductive MainOutcome where
  /-- `Scan::new` returned an `io::Error` which `main` propagates. -/
  | ioError
  /-- A panic unwound out of `main`. -/
  | panicked (p : RPanic)
  /-- `main` returned `Ok(())`. -/
  | ok
deriving DecidableEq, Repr

/-- `main` after argument handling (src/main.rs lines 246-261), given
the outcome of `Scan::new`; the second component lists the filesystem
write actions performed (`Scan::new` only reads). -/
def mainRun (scanOutcome : Except RPanic ScanAcc) : MainOutcome × List Path :=
  match scanOutcome with
  | .error p => (.panicked p, [])
  | .ok scan =>
    match scanExecute scan with
    | .error p => (.panicked p, [])
    | .ok _ => (.ok, [])

/-! ## Filesystem actions and their executor (src/blog.rs)

The destination filesystem is an association list from paths to entries;
`look` is the authoritative view (first binding wins).  Each `FsAction`
either applies atomically or fails leaving the state unchanged, per the
`std::fs` semantics of the call the executor makes. -/

/-- A filesystem entry. -/
inductive Entry where
  | dirE
  | fileE (content : String)
deriving DecidableEq, Repr

/-- Filesystem state. -/
abbrev FS := List (Path × Entry)

/-- `FsAction` (src/blog.rs lines 31-51). -/
inductive FsAction where
  | copy (source dest : Path)
  | deleteDir (path : Path) (not_exists_ok : Bool) (recursive : Bool)
  | createDir (path : Path) (exists_ok : Bool)
  | writeFile (path : Path) (content : String)
deriving DecidableEq, Repr

/-- Look up a path (first binding wins). -/
def look : FS → Path → Option Entry
  | [], _ => none
  | (q, e) :: fs, p => if q = p then some e else look fs p

/-- `Path::exists`. -/
def existsB (fs : FS) (p : Path) : Bool := (look fs p).isSome

/-- `Path::is_dir`. -/
def isDirB (fs : FS) (p : Path) : Bool :=
  match look fs p with
  | some .dirE => true
  | _ => false

/-- `Path::is_file`. -/
def isFileB (fs : FS) (p : Path) : Bool :=
  match look fs p with
  | some (.fileE _) => true
  | _ => false

/-- Whether `p` leads (as a component prefix, possibly improper) to `q`. -/
def isSub : Path → Path → Bool
  | [], _ => true
  | _ :: _, [] => false
  | a :: as', b :: bs => a = b && isSub as' bs

/-- Create or overwrite one binding. -/
def setFS (p : Path) (e : Entry) (fs : FS) : FS :=
  (p, e) :: fs.filter (fun q => !(q.1 = p : Bool))

/-- Remove a path together with everything below it
(`fs::remove_dir_all`). -/
def delTree (p : Path) (fs : FS) : FS :=
  fs.filter (fun q => !(isSub p q.1))

/-- Whether directory `p` has no entry strictly below it
(`fs::remove_dir` requires an empty directory). -/
def dirEmptyB (fs : FS) (p : Path) : Bool :=
  fs.all (fun q => !(isSub p q.1) || (q.1 = p : Bool))

/-- Parent path. -/
def parentP (p : Path) : Path := p.dropLast

/-- Apply one action (the match arms of `execute_fs_actions`,
src/blog.rs lines 57-110); `none` is an `io::Error`, in which case the
state is unchanged.

* `copy`: `fs::copy` needs a readable regular source file; the
  destination is created or overwritten, fails as a directory or with a
  missing parent.
* `deleteDir`: the explicit check errs when `not_exists_ok` is false
  and the path is absent; then `fs::remove_dir_all` (resp.
  `fs::remove_dir`) itself errs unless the path is an existing directory
  (resp. an existing empty directory) — in particular a missing path
  errs even when `not_exists_ok` is true.
* `createDir`: with `exists_ok` and an existing path, a no-op for a
  directory and an error otherwise; else `fs::create_dir`, which errs on
  an existing path or a missing parent.
* `writeFile`: the explicit check errs when the path exists as a
  non-file; then `fs::write` creates or truncates, erring when the
  parent directory is missing. -/
def applyAction (fs : FS) : FsAction → Option FS
  | .copy source dest =>
    match look fs source with
    | some (.fileE c) =>
      if isDirB fs dest then none
      else if isFileB fs dest || isDirB fs (parentP dest) then
        some (setFS dest (.fileE c) fs)
      else none
    | _ => none
  | .deleteDir path not_exists_ok recursive =>
    if !not_exists_ok && !existsB fs path then none
    else if recursive then
      if isDirB fs path then some (delTree path fs) else none
    else
      if isDirB fs path && dirEmptyB fs path then some (delTree path fs)
      else none
  | .createDir path exists_ok =>
    if exists_ok && existsB fs path then
      if isDirB fs path then some fs else none
    else
      if existsB fs path then none
      else if isDirB fs (parentP path) then some (setFS path .dirE fs)
      else none
  | .writeFile path content =>
    if existsB fs path && !isFileB fs path then none
    else if isFileB fs path || isDirB fs (parentP path) then
      some (setFS path (.fileE content) fs)
    else none

/-- `execute_fs_actions` (src/blog.rs lines 54-114): strict in-order
application; the returned state is the one reached when the run stops,
the boolean is `true` on `Ok(())`. -/
def runActions (fs : FS) : List FsAction → FS × Bool
  | [] => (fs, true)
  | a :: rest =>
    match applyAction fs a with
    | some fs2 => runActions fs2 rest
    | none => (fs, false)

/-- All-or-nothing composition of a whole action list (for stating which
prefix a run applied). -/
def applyAll (fs : FS) : List FsAction → Option FS
  | [] => some fs
  | a :: rest => (applyAction fs a).bind (fun g => applyAll g rest)

/-! ## The blog planner (src/blog.rs lines 116-193)

`Post` lives in a source file of this repository that is not under
`src/` (only `blog.rs`, its user, is).  Modelled from the spec: a
ContentDocument carries its source path, body and co-located asset
paths; `Post::push_html` appends the document body rendered to HTML, the
markdown-to-HTML step itself being out of scope and taken as an abstract
`render` function. -/

/-- Modelled from the spec: the `Post` fields `generate_actions` reads
(`source`, the markdown body consumed by `push_html`, and `assets`);
title and dates are not consulted by the planner. -/
structure Post where
  source : Path
  markdown : String
  assets : List Path

/-- `Blog` (src/blog.rs lines 24-28). -/
structure Blog where
  posts : List Post
  header : Option String
  footer : Option String

/-- `HTML_START` (src/blog.rs lines 10-17). -/
def HTML_START : String :=
  "<!DOCTYPE html>\n<html>\n<head>\n    <meta charset=\"utf-8\" />\n</head>\n<body>\n    <main>\n"

/-- `HTML_END` (src/blog.rs lines 19-21). -/
def HTML_END : String := "    </main>\n</body>\n"

/-- The `index.html` content built for one post (src/blog.rs lines
170-175): shell start, optional header, rendered body, optional footer,
shell end. -/
def postContent (render : String → String) (blog : Blog) (post : Post) : String :=
  HTML_START ++ blog.header.getD "" ++ render post.markdown
    ++ blog.footer.getD "" ++ HTML_END

/-- The actions planned for one post (the loop body of
`generate_actions`, src/blog.rs lines 154-189); `none` models the
`expect` panics on a missing file stem or asset file name. -/
def postActs (render : String → String) (blog : Blog) (root : Path)
    (post : Post) : Option (List FsAction) :=
  match pathFileStem post.source with
  | none => none   -- .expect "Post must have filename"
  | some stem =>
    let postDir := pathJoin root stem
    match post.assets.mapM (fun a => (pathFileName a).map (fun n => (a, n))) with
    | none => none -- .expect "Asset must have file name"
    | some assetNames =>
      some ([ .deleteDir postDir true true,
              .createDir postDir false,
              .writeFile (pathJoin postDir "index.html") (postContent render blog post) ]
        ++ assetNames.map (fun an => .copy an.1 (pathJoin postDir an.2)))

/-- `Blog::generate_actions` (src/blog.rs lines 151-193). -/
def generateActions (render : String → String) (blog : Blog) (root : Path) :
    Option (List FsAction) :=
  (blog.posts.mapM (postActs render blog root)).map List.flatten

/-- `Blog::generate` (src/blog.rs lines 146-149): plan then execute. -/
def generate (render : String → String) (blog : Blog) (root : Path) (fs : FS) :
    Option (FS × Bool) :=
  (generateActions render blog root).map (runActions fs)

/-- The post of the `standalone_file_post_generated` test scenario
(src/blog.rs lines 203-242): source `content/test_post.md`, body
`A test post`, no assets. -/
def testPost : Post :=
  { source := ["content", "test_post.md"], markdown := "A test post"
    assets := [] }

/-- The blog of the test scenario: one post, no header, no footer. -/
def testBlog : Blog :=
  { posts := [testPost], header := none, footer := none }

/-! ## Per-post action blocks

`generate_actions` emits, per post, a fixed three-action core followed
by one copy per asset; `Plan` names that shape (destination directory,
`index.html` content, and (source, file name) pairs for the copies), so
that properties of a whole generated action list can be stated per
block. -/

/-- The per-post plan shape. -/
structure Plan where
  d : Path
  content : String
  cps : List (Path × String)

/-- The copy actions of one block. -/
def copyActs (d : Path) (cps : List (Path × String)) : List FsAction :=
  cps.map (fun an => .copy an.1 (d ++ [an.2]))

/-- The whole action block of one plan. -/
def planActs (pl : Plan) : List FsAction :=
  [ .deleteDir pl.d true true,
    .createDir pl.d false,
    .writeFile (pl.d ++ ["index.html"]) pl.content ]
  ++ copyActs pl.d pl.cps

/-- The action blocks of a plan list, in order. -/
def plansActs (pls : List Plan) : List FsAction :=
  (pls.map planActs).flatten

/-! # Theorems -/

/-! ## Byte-slicing facts (for C10) -/

theorem takeBytes_isSome_iff (cs : List Char) (n : Nat) :
    (takeBytes cs n).isSome = isByteBoundary cs n := by
  induction cs generalizing n with
  | nil => cases n <;> simp [takeBytes, isByteBoundary]
  | cons c cs ih =>
    cases n with
    | zero => simp [takeBytes, isByteBoundary]
    | succ m =>
      simp only [takeBytes, isByteBoundary]
      split
      · simp [ih]
      · simp

theorem isByteBoundary_le (cs : List Char) (n : Nat)
    (h : isByteBoundary cs n = true) : n ≤ utf8Len cs := by
  induction cs generalizing n with
  | nil =>
    cases n with
    | zero => simp [utf8Len]
    | succ m => simp [isByteBoundary] at h
  | cons c cs ih =>
    cases n with
    | zero => exact Nat.zero_le _
    | succ m =>
      simp only [isByteBoundary] at h
      split at h
      · have := ih _ h
        have hle : c.utf8Size ≤ m + 1 := by omega
        have : utf8Len (c :: cs) = c.utf8Size + utf8Len cs := rfl
        omega
      · exact absurd h (by simp)

/-! ## Trimming facts (for C4) -/

theorem dropWhile_isWs_idem (l : List Char) :
    (l.dropWhile isWs).dropWhile isWs = l.dropWhile isWs := by
  induction l with
  | nil => rfl
  | cons c r ih =>
    by_cases hc : isWs c = true
    · simp [List.dropWhile, hc, ih]
    · simp [List.dropWhile, hc]

theorem dropWhile_isWs_head (l : List Char) :
    ∀ c, (l.dropWhile isWs).head? = some c → isWs c = false := by
  induction l with
  | nil => intro c h; simp [List.dropWhile] at h
  | cons a r ih =>
    intro c h
    by_cases ha : isWs a = true
    · exact ih c (by simpa [List.dropWhile, ha] using h)
    · simp [List.dropWhile, ha] at h
      simp [← h, ha]

theorem dropWhile_eq_self_of_head (l : List Char)
    (h : ∀ c, l.head? = some c → isWs c = false) :
    l.dropWhile isWs = l := by
  cases l with
  | nil => rfl
  | cons a r => simp [List.dropWhile, h a rfl]

theorem dropWhile_isWs_getLast (l : List Char) (hne : l.dropWhile isWs ≠ []) :
    (l.dropWhile isWs).getLast? = l.getLast? := by
  obtain ⟨t, ht⟩ := (List.dropWhile_suffix (l := l) (p := isWs))
  conv_rhs => rw [← ht]
  rw [List.getLast?_append_of_ne_nil _ hne]

theorem rustTrim_idem (l : List Char) : rustTrim (rustTrim l) = rustTrim l := by
  set u := l.dropWhile isWs with hu
  set v := u.reverse.dropWhile isWs with hv
  have htrim : rustTrim l = v.reverse := rfl
  by_cases hvnil : v = []
  · rw [htrim, hvnil]; rfl
  · -- the head of `v.reverse` is the last of `v`, which is the last of
    -- `u.reverse`, i.e. the head of `u`: not whitespace
    have hhead : ∀ c, v.reverse.head? = some c → isWs c = false := by
      intro c hc
      rw [List.head?_reverse] at hc
      rw [hv, dropWhile_isWs_getLast u.reverse (hv ▸ hvnil)] at hc
      rw [List.getLast?_reverse] at hc
      exact dropWhile_isWs_head l c (hu ▸ hc)
    have hstep1 : v.reverse.dropWhile isWs = v.reverse :=
      dropWhile_eq_self_of_head _ hhead
    have hstep2 : v.reverse.reverse.dropWhile isWs = v := by
      rw [List.reverse_reverse, hv, dropWhile_isWs_idem]
    rw [htrim]
    show ((v.reverse.dropWhile isWs).reverse.dropWhile isWs).reverse = v.reverse
    rw [hstep1, hstep2]

/-! ## Claim theorems: parsing and dates -/

/-- C1 (counterexample to the spec, exhibiting the code bug): scanning a
source tree `content/` holding `post.md` (whose front matter declares
`template = /tpl.html`), the template file `tpl.html`, and the plain
asset `style.css`, the final copy-candidate list is `[content/tpl.html]`:
the second pass `retain(|path| templates.contains(path))` keeps exactly
the template-referenced paths and drops every other non-markdown file,
the opposite of both the spec and the code's own comment. -/
theorem scan_copy_list_keeps_only_templates :
    (scanNew ["content"] ["dist"]
        [ .fileT "post.md" "+++\ntemplate = /tpl.html\n+++\nbody",
          .fileT "tpl.html" "<p>",
          .fileT "style.css" "b" ]).map (fun a => a.files_to_copy)
      = .ok [["content", "tpl.html"]]
    ∧ ["content", "style.css"] ∉ [[("content" : String), "tpl.html"]] := by
  constructor
  · rfl
  · decide

/-- C2 (counterexample to the spec, exhibiting the code bug): for the
document `content/post.md` whose front matter declares
`template = page.html` (no leading slash), `MdFile::new` pushes the
value onto the document's own path, resolving to
`content/post.md/page.html` rather than to the document directory's
`content/page.html`. -/
theorem template_relative_joined_to_file_path :
    (mdDocNew ["content"] ["content", "post.md"]
        "+++\ntemplate = page.html\n+++\nbody").map (fun d => d.template)
      = .ok (some ["content", "post.md", "page.html"])
    ∧ (some ["content", "post.md", "page.html"]
        ≠ some [("content" : String), "page.html"]) := by
  constructor
  · rfl
  · decide

/-- C3 counterexample: parsing the scenario document
`+++\ntitle = Hello\n+++\nBody text` yields metadata `title = Hello` and
body offset 21, but the text from byte 21 to the end is `"\nBody text"`,
not exactly `"Body text"` — the newline that closes the fence line stays
in the body. -/
theorem front_matter_scenario_body_not_exact :
    mdParseMeta "+++\ntitle = Hello\n+++\nBody text".data
        = .ok ([("title".data, "Hello".data)], 21)
    ∧ dropBytes "+++\ntitle = Hello\n+++\nBody text".data 21
        = some "\nBody text".data
    ∧ "\nBody text".data ≠ "Body text".data := by
  refine ⟨rfl, rfl, ?_⟩
  decide

/-- C3 (amended): parsing `+++\ntitle = Hello\n+++\nBody text` yields
metadata exactly `title = Hello`, and the body offset 21 points just
past the closing `+++`, so the remaining text is `"\nBody text"`. -/
theorem front_matter_scenario_amended :
    mdParseMeta "+++\ntitle = Hello\n+++\nBody text".data
        = .ok ([("title".data, "Hello".data)], 21)
    ∧ dropBytes "+++\ntitle = Hello\n+++\nBody text".data 21
        = some "\nBody text".data :=
  ⟨rfl, rfl⟩

/-- C4 counterexample: a document with `tags = a,,b` parses to the tag
list `["a", "", "b"]`, which contains the empty string, so the parsed
tag list is not free of empty tags. -/
theorem tags_scenario_empty_tag :
    (mdParseMeta "+++\ntags = a,,b\n+++\nbody".data).map (fun r => mdTags r.1)
      = .ok [['a'], [], ['b']]
    ∧ ([] : List Char) ∈ [['a'], [], ['b']] := by
  refine ⟨rfl, ?_⟩
  decide

/-- C4 (amended): every parsed tag equals its whitespace-trimmed form
(tags are built by `split(',')` followed by `trim`, and trimming is
idempotent); the list may however contain empty strings, one per empty
comma-separated entry. -/
theorem tags_all_trimmed (m : MetaMap) (t : List Char)
    (h : t ∈ mdTags m) : t = rustTrim t := by
  unfold mdTags at h
  cases hg : metaGet m "tags".data with
  | none => rw [hg] at h; simp at h
  | some s =>
    rw [hg] at h
    simp only [List.mem_map] at h
    obtain ⟨piece, _, hpt⟩ := h
    rw [← hpt, rustTrim_idem]

/-- Witness for `tags_all_trimmed` at `tags = a, b`. -/
theorem tags_all_trimmed_witness :
    "a".data ∈ mdTags [("tags".data, "a, b".data)]
    ∧ "a".data = rustTrim "a".data :=
  ⟨by decide, tags_all_trimmed [("tags".data, "a, b".data)] "a".data (by decide)⟩

/-- C5 counterexample: with no declared date and a filesystem creation
time one second before the Unix epoch, `parse_opt_date` does not fall
through to today's date — `duration_since(UNIX_EPOCH).unwrap()` panics. -/
theorem date_pre_epoch_panics :
    parse_opt_date (fun _ => false)
        (some { created := .ok (-1), modified := .ok 0 }) true none
      = .error .unwrap := by
  rfl

/-- C5 (amended): whenever every filesystem timestamp the call can
consult is at or after the Unix epoch, `parse_opt_date` always returns a
date: a declared value that parses wins; otherwise the filesystem
timestamp is used; on a parse failure combined with any filesystem
failure the result is today's date, with no other outcome possible. -/
theorem fsDateFallback_none (created : Bool) :
    parse_opt_date.fsDateFallback none created = .ok .today := rfl

theorem fsDateFallback_some (m : FsMetaInfo) (created : Bool) :
    parse_opt_date.fsDateFallback (some m) created =
      match (if created then m.created else m.modified) with
      | .ok t =>
        match durationSinceEpochSecs t with
        | .ok secs => .ok (.fromTs (castI64 secs))
        | .error _ => .error .unwrap
      | .error _ => .ok .today := rfl

theorem parse_opt_date_some (pOk : List Char → Bool) (meta : Option FsMetaInfo)
    (created : Bool) (s : List Char) :
    parse_opt_date pOk meta created (some s) =
      if pOk s then .ok (.fromStr s)
      else parse_opt_date.fsDateFallback meta created := rfl

theorem parse_opt_date_none (pOk : List Char → Bool) (meta : Option FsMetaInfo)
    (created : Bool) :
    parse_opt_date pOk meta created none =
      parse_opt_date.fsDateFallback meta created := rfl

theorem date_fallback_chain (pOk : List Char → Bool) (meta : Option FsMetaInfo)
    (created : Bool) (declared : Option (List Char))
    (hts : ∀ m t, meta = some m →
      (if created then m.created else m.modified) = .ok t → 0 ≤ t) :
    (∃ d, parse_opt_date pOk meta created declared = .ok d)
    ∧ (∀ s, declared = some s → pOk s = true →
        parse_opt_date pOk meta created declared = .ok (.fromStr s))
    ∧ ((∀ s, declared = some s → pOk s = false) →
        (meta = none → parse_opt_date pOk meta created declared = .ok .today)
        ∧ (∀ m, meta = some m →
            (if created then m.created else m.modified) = .error () →
            parse_opt_date pOk meta created declared = .ok .today)) := by
  have hfb : (∃ d, parse_opt_date.fsDateFallback meta created = .ok d) := by
    cases meta with
    | none => exact ⟨.today, rfl⟩
    | some m =>
      cases hc : (if created then m.created else m.modified) with
      | ok t =>
        refine ⟨.fromTs (castI64 t.toNat), ?_⟩
        have h0 : 0 ≤ t := hts m t rfl hc
        rw [fsDateFallback_some, hc]
        simp [durationSinceEpochSecs, h0]
      | error e =>
        refine ⟨.today, ?_⟩
        rw [fsDateFallback_some, hc]
  refine ⟨?_, ?_, ?_⟩
  · unfold parse_opt_date
    cases declared with
    | none => exact hfb
    | some s =>
      by_cases hp : pOk s = true
      · exact ⟨.fromStr s, by simp [hp]⟩
      · simpa [hp] using hfb
  · intro s hd hp
    subst hd
    unfold parse_opt_date
    simp [hp]
  · intro hfail
    have hfb2 : meta = none ∨ (∃ m, meta = some m ∧
        (if created then m.created else m.modified) = .error ()) →
        parse_opt_date.fsDateFallback meta created = .ok .today := by
      intro hcase
      rcases hcase with hm | ⟨m, hm, herr⟩
      · subst hm; rfl
      · subst hm
        rw [fsDateFallback_some, herr]
    constructor
    · intro hm
      cases declared with
      | none => exact hfb2 (Or.inl hm)
      | some s =>
        rw [parse_opt_date_some, hfail s rfl]
        simpa using hfb2 (Or.inl hm)
    · intro m hm herr
      cases declared with
      | none => exact hfb2 (Or.inr ⟨m, hm, herr⟩)
      | some s =>
        rw [parse_opt_date_some, hfail s rfl]
        simpa using hfb2 (Or.inr ⟨m, hm, herr⟩)

/-- Witness for `date_fallback_chain`: a declared value that fails to
parse together with an erring modification timestamp. -/
theorem date_fallback_chain_witness :
    (∀ m t, (some { created := .ok 5, modified := .error () } : Option FsMetaInfo) = some m →
      (if false then m.created else m.modified) = .ok t → 0 ≤ t)
    ∧ ((∃ d, parse_opt_date (fun _ => false)
          (some { created := .ok 5, modified := .error () }) false
          (some "nodate".data) = .ok d)
      ∧ (∀ s, (some "nodate".data : Option (List Char)) = some s → (fun _ => false) s = true →
          parse_opt_date (fun _ => false)
            (some { created := .ok 5, modified := .error () }) false
            (some "nodate".data) = .ok (.fromStr s))
      ∧ ((∀ s, (some "nodate".data : Option (List Char)) = some s → (fun _ => false) s = false) →
          ((some { created := .ok 5, modified := .error () } : Option FsMetaInfo) = none →
            parse_opt_date (fun _ => false)
              (some { created := .ok 5, modified := .error () }) false
              (some "nodate".data) = .ok .today)
          ∧ (∀ m, (some { created := .ok 5, modified := .error () } : Option FsMetaInfo) = some m →
              (if false then m.created else m.modified) = .error () →
              parse_opt_date (fun _ => false)
                (some { created := .ok 5, modified := .error () }) false
                (some "nodate".data) = .ok .today))) := by
  constructor
  · intro m t hm ht
    cases hm
    simp at ht
  · exact date_fallback_chain (fun _ => false)
      (some { created := .ok 5, modified := .error () }) false
      (some "nodate".data)
      (by intro m t hm ht; cases hm; simp at ht)

/-- C9: whenever `Scan::new` succeeds, `main` ends in the `todo!()`
panic of `Scan::execute` and performs no filesystem write action at
all — no directory creation, no copy, no HTML output. -/
theorem main_panics_before_output (s : ScanAcc) :
    mainRun (.ok s) = (.panicked .todoUnimplemented, []) :=
  rfl

/-- C10: `MdFile::new` slices `&contents[..4]` unconditionally, so any
content shorter than 4 bytes, or whose byte 4 is not a UTF-8 character
boundary, makes parsing panic instead of treating the document as one
without front matter. -/
theorem md_short_content_panics (cs : List Char)
    (h : utf8Len cs < 4 ∨ isByteBoundary cs 4 = false) :
    mdParseMeta cs = .error .slice := by
  have hb : isByteBoundary cs 4 = false := by
    rcases h with h | h
    · cases hx : isByteBoundary cs 4 with
      | false => rfl
      | true => exact absurd (isByteBoundary_le cs 4 hx) (by omega)
    · exact h
  have htb : takeBytes cs 4 = none := by
    have := takeBytes_isSome_iff cs 4
    rw [hb] at this
    exact Option.not_isSome_iff_eq_none.mp (by simp [this])
  unfold mdParseMeta
  rw [htb]

/-- Witness for `md_short_content_panics`: the empty file. -/
theorem md_short_content_panics_witness :
    (utf8Len "".data < 4 ∨ isByteBoundary "".data 4 = false)
    ∧ mdParseMeta "".data = .error .slice :=
  ⟨Or.inl (by decide), md_short_content_panics _ (Or.inl (by decide))⟩

/-! ## Claim theorems: executor and planner -/

/-- C7: `execute_fs_actions` applies the actions strictly in input
order: there is a `k` such that exactly the first `k` actions were
applied (the reached state is their all-or-nothing composition), a
successful run has `k` equal to the list length, and a failed run stops
at index `k`, where the action fails on the state the prefix produced —
no later action is applied, no retry, no rollback. -/
theorem executor_stops_at_first_failure (acts : List FsAction) (fs : FS) :
    ∃ k fsk, k ≤ acts.length
      ∧ applyAll fs (acts.take k) = some fsk
      ∧ (runActions fs acts).1 = fsk
      ∧ ((runActions fs acts).2 = true → k = acts.length)
      ∧ ((runActions fs acts).2 = false → k < acts.length
          ∧ applyAction fsk (acts.getD k (.createDir [] false)) = none) := by
  induction acts generalizing fs with
  | nil =>
    exact ⟨0, fs, by simp [applyAll, runActions]⟩
  | cons a rest ih =>
    cases ha : applyAction fs a with
    | none =>
      refine ⟨0, fs, by simp, rfl, ?_⟩
      simp [runActions, ha]
    | some fs2 =>
      obtain ⟨k, fsk, hk, happ, hfst, htrue, hfalse⟩ := ih fs2
      refine ⟨k + 1, fsk, by simpa using hk, ?_, ?_, ?_, ?_⟩
      · simp [List.take_succ_cons, applyAll, ha, happ]
      · simp [runActions, ha, hfst]
      · intro h
        have := htrue (by simpa [runActions, ha] using h)
        simpa using this
      · intro h
        have h2 := hfalse (by simpa [runActions, ha] using h)
        have hlt := h2.1
        exact ⟨by simp only [List.length_cons]; omega, by simpa using h2.2⟩

/-- C6: for a blog with a single post and no assets, `generate_actions`
plans exactly three actions, in order: recursively delete the
destination subdirectory named after the source file stem (missing ok),
create that directory (existing is an error), and write `index.html`
whose content is the fixed HTML shell start, the header (empty if
absent), the rendered body, the footer (empty if absent), and the fixed
shell end; whenever the rendered body contains the post's body text, so
does the written content. -/
theorem single_post_plan (render : String → String) (blog : Blog)
    (root : Path) (p : Post) (stem : String)
    (hp : blog.posts = [p]) (ha : p.assets = [])
    (hs : pathFileStem p.source = some stem) :
    generateActions render blog root = some
      [ .deleteDir (root ++ [stem]) true true,
        .createDir (root ++ [stem]) false,
        .writeFile (root ++ [stem, "index.html"])
          (HTML_START ++ blog.header.getD "" ++ render p.markdown
            ++ blog.footer.getD "" ++ HTML_END) ]
    ∧ (p.markdown.data <:+: (render p.markdown).data →
        p.markdown.data <:+:
          (HTML_START ++ blog.header.getD "" ++ render p.markdown
            ++ blog.footer.getD "" ++ HTML_END).data) := by
  constructor
  · unfold generateActions
    rw [hp]
    simp only [List.mapM_cons, List.mapM_nil]
    unfold postActs
    rw [hs, ha]
    simp [pathJoin, postContent, List.append_assoc, List.mapM.loop]
  · intro hinf
    obtain ⟨s, t, hst⟩ := hinf
    refine ⟨(HTML_START ++ blog.header.getD "").data ++ s,
            t ++ (blog.footer.getD "" ++ HTML_END).data, ?_⟩
    simp only [String.data_append]
    rw [← hst]
    simp

/-- Witness for `single_post_plan`, at the test scenario of
src/blog.rs (`content/test_post.md`, body `A test post`, no header or
footer, destination `dist`) with the identity renderer. -/
theorem single_post_plan_witness :
    (testBlog.posts = [testPost] ∧ testPost.assets = []
      ∧ pathFileStem testPost.source = some "test_post")
    ∧ (generateActions (fun s => s) testBlog ["dist"] = some
        [ .deleteDir ["dist", "test_post"] true true,
          .createDir ["dist", "test_post"] false,
          .writeFile ["dist", "test_post", "index.html"]
            (HTML_START ++ testBlog.header.getD ""
              ++ (fun s => s) testPost.markdown
              ++ testBlog.footer.getD "" ++ HTML_END) ]
      ∧ (testPost.markdown.data <:+: ((fun s => s) testPost.markdown).data →
          testPost.markdown.data <:+:
            (HTML_START ++ testBlog.header.getD ""
              ++ (fun s => s) testPost.markdown
              ++ testBlog.footer.getD "" ++ HTML_END).data)) := by
  constructor
  · exact ⟨rfl, rfl, by decide⟩
  · have h := single_post_plan (fun s => s) testBlog ["dist"] testPost
      "test_post" rfl rfl (by decide)
    simpa using h

/-! ## Path facts (for C8) -/

theorem isSub_refl (p : Path) : isSub p p = true := by
  induction p with
  | nil => rfl
  | cons a as ih => simp [isSub, ih]

theorem isSub_append (p l : Path) : isSub p (p ++ l) = true := by
  induction p with
  | nil => rfl
  | cons a as ih => simp [isSub, ih]

theorem isSub_iff (p q : Path) : isSub p q = true ↔ ∃ r, q = p ++ r := by
  induction p generalizing q with
  | nil => simp [isSub]
  | cons a as ih =>
    cases q with
    | nil => simp [isSub]
    | cons b bs =>
      simp only [isSub, Bool.and_eq_true, decide_eq_true_eq]
      constructor
      · rintro ⟨hab, hsub⟩
        obtain ⟨r, hr⟩ := (ih bs).mp hsub
        exact ⟨r, by simp [hab, hr]⟩
      · rintro ⟨r, hr⟩
        rw [List.cons_append] at hr
        injection hr with h1 h2
        exact ⟨h1.symm, (ih bs).mpr ⟨r, h2⟩⟩

theorem isSub_trans {p q r : Path} (h1 : isSub p q = true)
    (h2 : isSub q r = true) : isSub p r = true := by
  obtain ⟨u, hu⟩ := (isSub_iff p q).mp h1
  obtain ⟨v, hv⟩ := (isSub_iff q r).mp h2
  exact (isSub_iff p r).mpr ⟨u ++ v, by rw [hv, hu, List.append_assoc]⟩

theorem isSub_length {p q : Path} (h : isSub p q = true) :
    p.length ≤ q.length := by
  obtain ⟨r, hr⟩ := (isSub_iff p q).mp h
  rw [hr]
  simp

theorem isSub_dropLast_false (d : Path) (hne : d ≠ []) :
    isSub d (parentP d) = false := by
  cases h : isSub d (parentP d) with
  | false => rfl
  | true =>
    exfalso
    have hle := isSub_length h
    have : (parentP d).length = d.length - 1 := by simp [parentP]
    have hpos : 0 < d.length := List.length_pos.mpr hne
    omega

theorem isSub_child_parent_false (root : Path) (s : String) :
    isSub (root ++ [s]) root = false := by
  cases h : isSub (root ++ [s]) root with
  | false => rfl
  | true =>
    exfalso
    have hle := isSub_length h
    simp at hle

theorem append_singleton_ne (l : Path) (a : String) : l ++ [a] ≠ l := by
  intro h
  have := congrArg List.length h
  simp at this

theorem children_disjoint {root : Path} {s t : String} (hst : s ≠ t)
    {q : Path} (h1 : isSub (root ++ [s]) q = true) :
    isSub (root ++ [t]) q = false := by
  cases h2 : isSub (root ++ [t]) q with
  | false => rfl
  | true =>
    exfalso
    obtain ⟨u, hu⟩ := (isSub_iff _ _).mp h1
    obtain ⟨v, hv⟩ := (isSub_iff _ _).mp h2
    rw [hu, List.append_assoc, List.append_assoc] at hv
    have := List.append_cancel_left hv
    simp at this
    exact hst this.1

theorem isSub_root_of_child {root : Path} {s : String} {q : Path}
    (h : isSub (root ++ [s]) q = true) : isSub root q = true :=
  isSub_trans (isSub_append root [s]) h

theorem parentP_child (root : Path) (s : String) :
    parentP (root ++ [s]) = root := by
  simp [parentP]

theorem child_ne_nil (root : Path) (s : String) : root ++ [s] ≠ [] := by
  simp

/-! ## Lookup facts (for C8) -/

theorem look_filterKey (p : Path) (fs : FS) (q : Path) (h : q ≠ p) :
    look (fs.filter (fun e => !(e.1 = p : Bool))) q = look fs q := by
  induction fs with
  | nil => rfl
  | cons kv fs ih =>
    obtain ⟨k, v⟩ := kv
    by_cases hkp : k = p
    · subst hkp
      have hfil : ((k, v) :: fs).filter (fun e => !(e.1 = k : Bool))
          = fs.filter (fun e => !(e.1 = k : Bool)) := by
        simp [List.filter_cons]
      rw [hfil, ih]
      have hkq : k ≠ q := Ne.symm h
      simp [look, hkq]
    · have hfil : ((k, v) :: fs).filter (fun e => !(e.1 = p : Bool))
          = (k, v) :: fs.filter (fun e => !(e.1 = p : Bool)) := by
        simp [List.filter_cons, hkp]
      rw [hfil]
      by_cases hkq : k = q <;> simp [look, hkq, ih]

theorem look_setFS (p : Path) (e : Entry) (fs : FS) (q : Path) :
    look (setFS p e fs) q = if q = p then some e else look fs q := by
  unfold setFS
  rw [look]
  by_cases hqp : q = p
  · simp [hqp]
  · simp only [hqp, if_false]
    rw [if_neg (fun h => hqp h.symm)]
    exact look_filterKey p fs q hqp

theorem look_delTree (d : Path) (fs : FS) (q : Path) :
    look (delTree d fs) q = if isSub d q then none else look fs q := by
  induction fs with
  | nil => simp [delTree, look]
  | cons kv fs ih =>
    obtain ⟨k, v⟩ := kv
    by_cases hk : isSub d k = true
    · have hfil : delTree d ((k, v) :: fs) = delTree d fs := by
        simp [delTree, List.filter_cons, hk]
      rw [hfil, ih]
      by_cases hq : isSub d q = true
      · simp [hq]
      · have hkq : k ≠ q := fun h => by rw [h] at hk; rw [hk] at hq; simp at hq
        simp [hq, look, hkq]
    · have hfil : delTree d ((k, v) :: fs) = (k, v) :: delTree d fs := by
        simp [delTree, List.filter_cons, hk]
      rw [hfil]
      by_cases hkq : k = q
      · subst hkq
        have hq : isSub d k = false := by simpa using hk
        simp [look, hq, ih]
      · simp [look, hkq, ih]

theorem isDirB_congr {h g : FS} {p : Path} (he : look h p = look g p) :
    isDirB h p = isDirB g p := by
  unfold isDirB
  rw [he]

theorem isFileB_congr {h g : FS} {p : Path} (he : look h p = look g p) :
    isFileB h p = isFileB g p := by
  unfold isFileB
  rw [he]

theorem existsB_congr {h g : FS} {p : Path} (he : look h p = look g p) :
    existsB h p = existsB g p := by
  unfold existsB
  rw [he]

/-! ## Executor composition facts (for C8) -/

theorem applyAll_append (fs : FS) (l1 l2 : List FsAction) :
    applyAll fs (l1 ++ l2) = (applyAll fs l1).bind (fun g => applyAll g l2) := by
  induction l1 generalizing fs with
  | nil => simp [applyAll]
  | cons a l1 ih =>
    rw [List.cons_append]
    show (applyAction fs a).bind (fun g => applyAll g (l1 ++ l2))
      = ((applyAction fs a).bind (fun g => applyAll g l1)).bind
          (fun g => applyAll g l2)
    cases applyAction fs a with
    | none => simp
    | some g =>
      simp only [Option.some_bind]
      exact ih g

theorem runActions_of_applyAll {fs g : FS} {acts : List FsAction}
    (h : applyAll fs acts = some g) : runActions fs acts = (g, true) := by
  induction acts generalizing fs with
  | nil => simp [applyAll] at h; simp [runActions, h]
  | cons a rest ih =>
    unfold applyAll at h
    cases ha : applyAction fs a with
    | none => rw [ha] at h; simp at h
    | some fs2 =>
      rw [ha] at h
      simp only [Option.some_bind] at h
      rw [runActions, ha]
      exact ih h

theorem applyAll_of_runActions {fs : FS} {acts : List FsAction}
    (h : (runActions fs acts).2 = true) :
    applyAll fs acts = some (runActions fs acts).1 := by
  induction acts generalizing fs with
  | nil => simp [applyAll, runActions]
  | cons a rest ih =>
    cases ha : applyAction fs a with
    | none => rw [runActions, ha] at h ⊢; simp at h
    | some fs2 =>
      rw [runActions, ha] at h ⊢
      unfold applyAll
      rw [ha]
      simpa using ih h

/-! ## Per-action equations (for C8) -/

theorem applyAction_deleteDir_rec (g : FS) (d : Path) :
    applyAction g (.deleteDir d true true)
      = if isDirB g d then some (delTree d g) else none := rfl

theorem applyAction_createDir (g : FS) (d : Path) :
    applyAction g (.createDir d false)
      = if existsB g d then none
        else if isDirB g (parentP d) then some (setFS d .dirE g) else none := rfl

theorem applyAction_writeFile (g : FS) (p : Path) (c : String) :
    applyAction g (.writeFile p c)
      = if existsB g p && !isFileB g p then none
        else if isFileB g p || isDirB g (parentP p) then
          some (setFS p (.fileE c) g)
        else none := rfl

theorem applyAction_copy (g : FS) (a dest : Path) :
    applyAction g (.copy a dest)
      = match look g a with
        | some (.fileE c) =>
          if isDirB g dest then none
          else if isFileB g dest || isDirB g (parentP dest) then
            some (setFS dest (.fileE c) g)
          else none
        | _ => none := rfl

theorem parentP_append_singleton (l : Path) (a : String) :
    parentP (l ++ [a]) = l := by
  simp [parentP]

/-- The three-action core of a block, as one state equation: it succeeds
exactly when the block directory and its parent are directories, and the
state it reaches is explicit. -/
theorem coreApplyAll (d : Path) (content : String) (g : FS) (hne : d ≠ []) :
    applyAll g [.deleteDir d true true, .createDir d false,
        .writeFile (d ++ ["index.html"]) content]
      = if isDirB g d && isDirB g (parentP d) then
          some (setFS (d ++ ["index.html"]) (.fileE content)
            (setFS d .dirE (delTree d g)))
        else none := by
  have hsubpar := isSub_dropLast_false d hne
  have hidx : isSub d (d ++ ["index.html"]) = true := isSub_append d _
  have hidxne : d ++ ["index.html"] ≠ d := append_singleton_ne d _
  simp only [applyAll]
  rw [applyAction_deleteDir_rec]
  by_cases hd : isDirB g d = true
  · simp only [hd, if_true, Option.some_bind, Bool.true_and]
    rw [applyAction_createDir]
    have hex : existsB (delTree d g) d = false := by
      simp [existsB, look_delTree, isSub_refl]
    have hpar : isDirB (delTree d g) (parentP d) = isDirB g (parentP d) :=
      isDirB_congr (by simp [look_delTree, hsubpar])
    rw [hex, hpar]
    by_cases hp : isDirB g (parentP d) = true
    · simp only [hp, if_true, if_false, Bool.false_eq_true, Option.some_bind]
      rw [applyAction_writeFile]
      have hex2 : existsB (setFS d .dirE (delTree d g)) (d ++ ["index.html"]) = false := by
        simp [existsB, look_setFS, hidxne, look_delTree, hidx]
      have hf2 : isFileB (setFS d .dirE (delTree d g)) (d ++ ["index.html"]) = false := by
        simp [isFileB, look_setFS, hidxne, look_delTree, hidx]
      have hd2 : isDirB (setFS d .dirE (delTree d g))
          (parentP (d ++ ["index.html"])) = true := by
        rw [parentP_append_singleton]
        simp [isDirB, look_setFS]
      rw [hex2, hf2, hd2]
      simp [applyAll]
    · simp only [Bool.not_eq_true] at hp
      simp [hp]
  · simp only [Bool.not_eq_true] at hd
    simp [hd]

/-- Forward analysis of one copy action. -/
theorem copyStepForward {a dest : Path} {g g' : FS}
    (h : applyAction g (.copy a dest) = some g') :
    ∃ c, look g a = some (.fileE c) ∧ isDirB g dest = false
      ∧ (isFileB g dest || isDirB g (parentP dest)) = true
      ∧ g' = setFS dest (.fileE c) g := by
  rw [applyAction_copy] at h
  cases hla : look g a with
  | none => rw [hla] at h; simp at h
  | some e =>
    cases e with
    | dirE => rw [hla] at h; simp at h
    | fileE c =>
      rw [hla] at h
      simp only at h
      by_cases hd : isDirB g dest = true
      · simp [hd] at h
      · simp only [Bool.not_eq_true] at hd
        simp only [hd, Bool.false_eq_true, if_false] at h
        by_cases hw : (isFileB g dest || isDirB g (parentP dest)) = true
        · simp only [hw, if_true] at h
          injection h with h2
          exact ⟨c, rfl, hd, hw, h2.symm⟩
        · simp [hw] at h

/-- Replay of one copy action whose checks are known to pass. -/
theorem copyStepApply {g : FS} {a dest : Path} {c : String}
    (hsrc : look g a = some (.fileE c)) (hnd : isDirB g dest = false)
    (hok : (isFileB g dest || isDirB g (parentP dest)) = true) :
    applyAction g (.copy a dest) = some (setFS dest (.fileE c) g) := by
  rw [applyAction_copy, hsrc]
  simp [hnd, hok]

/-- A successful copy chain of one block only modifies paths of the form
`d ++ [n]`: everything outside the subtree of `d`, and `d` itself, is
preserved. -/
theorem copyForward (d : Path) : ∀ (cps : List (Path × String)) (g gend : FS),
    applyAll g (copyActs d cps) = some gend →
    ∀ q, (isSub d q = false ∨ q = d) → look gend q = look g q := by
  intro cps
  induction cps with
  | nil =>
    intro g gend h q _
    simp [copyActs, applyAll] at h
    rw [h]
  | cons an rest ih =>
    intro g gend h q hq
    simp only [copyActs, List.map_cons] at h
    rw [show ((FsAction.copy an.1 (d ++ [an.2]) :: rest.map
        (fun an => FsAction.copy an.1 (d ++ [an.2]))) : List FsAction)
      = [FsAction.copy an.1 (d ++ [an.2])]
        ++ rest.map (fun an => FsAction.copy an.1 (d ++ [an.2])) from rfl,
      applyAll_append] at h
    cases h1 : applyAll g [FsAction.copy an.1 (d ++ [an.2])] with
    | none => rw [h1] at h; simp at h
    | some g1 =>
      rw [h1] at h
      simp only [Option.some_bind] at h
      have h1' : applyAction g (.copy an.1 (d ++ [an.2])) = some g1 := by
        simpa [applyAll] using h1
      obtain ⟨c, _, _, _, hg1⟩ := copyStepForward h1'
      have hrest := ih g1 gend (by simpa [copyActs] using h) q hq
      rw [hrest, hg1, look_setFS]
      have hqne : q ≠ d ++ [an.2] := by
        rcases hq with hq | hq
        · intro hcontra
          rw [hcontra] at hq
          rw [isSub_append] at hq
          exact absurd hq (by simp)
        · rw [hq]
          intro hcontra
          exact append_singleton_ne d an.2 hcontra.symm
      simp [hqne]

/-- Replaying a copy chain against a second state that agrees inside the
block directory and at every outside copy source: it succeeds with the
same effect inside the subtree of `d` and no effect outside. -/
theorem copyRun (d : Path) : ∀ (cps : List (Path × String)) (gk hk gend : FS),
    applyAll gk (copyActs d cps) = some gend →
    (∀ q, isSub d q = true → look hk q = look gk q) →
    (∀ an ∈ cps, isSub d an.1 = false → look hk an.1 = look gk an.1) →
    ∃ hend, applyAll hk (copyActs d cps) = some hend
      ∧ (∀ q, isSub d q = true → look hend q = look gend q)
      ∧ (∀ q, isSub d q = false → look hend q = look hk q) := by
  intro cps
  induction cps with
  | nil =>
    intro gk hk gend h hInv hs
    simp [copyActs, applyAll] at h
    subst h
    exact ⟨hk, by simp [copyActs, applyAll], fun q hq => hInv q hq, fun q _ => rfl⟩
  | cons an rest ih =>
    intro gk hk gend h hInv hs
    have hdest : isSub d (d ++ [an.2]) = true := isSub_append d _
    simp only [copyActs, List.map_cons] at h ⊢
    rw [show ((FsAction.copy an.1 (d ++ [an.2]) :: rest.map
        (fun an => FsAction.copy an.1 (d ++ [an.2]))) : List FsAction)
      = [FsAction.copy an.1 (d ++ [an.2])]
        ++ rest.map (fun an => FsAction.copy an.1 (d ++ [an.2])) from rfl,
      applyAll_append] at h ⊢
    cases h1 : applyAll gk [FsAction.copy an.1 (d ++ [an.2])] with
    | none => rw [h1] at h; simp at h
    | some gk1 =>
      rw [h1] at h
      simp only [Option.some_bind] at h
      have h1' : applyAction gk (.copy an.1 (d ++ [an.2])) = some gk1 := by
        simpa [applyAll] using h1
      obtain ⟨c, hsrcg, hndg, hokg, hgk1⟩ := copyStepForward h1'
      -- the h-side sees the same source content and the same checks
      have hsrceq : look hk an.1 = look gk an.1 := by
        by_cases hsub : isSub d an.1 = true
        · exact hInv _ hsub
        · exact hs an (List.mem_cons_self _ _) (by simpa using hsub)
      have hndh : isDirB hk (d ++ [an.2]) = false := by
        rw [isDirB_congr (hInv _ hdest)]; exact hndg
      have hokh : (isFileB hk (d ++ [an.2])
          || isDirB hk (parentP (d ++ [an.2]))) = true := by
        rw [isFileB_congr (hInv _ hdest)]
        rw [isDirB_congr (hInv (parentP (d ++ [an.2]))
          (by rw [parentP_append_singleton]; exact isSub_refl d))]
        exact hokg
      have hstep : applyAction hk (.copy an.1 (d ++ [an.2]))
          = some (setFS (d ++ [an.2]) (.fileE c) hk) :=
        copyStepApply (by rw [hsrceq]; exact hsrcg) hndh hokh
      -- invariants for the tail
      have hInv1 : ∀ q, isSub d q = true →
          look (setFS (d ++ [an.2]) (.fileE c) hk) q = look gk1 q := by
        intro q hq
        rw [hgk1, look_setFS, look_setFS]
        by_cases hqd : q = d ++ [an.2] <;> simp [hqd, hInv q hq]
      have hs1 : ∀ an' ∈ rest, isSub d an'.1 = false →
          look (setFS (d ++ [an.2]) (.fileE c) hk) an'.1 = look gk1 an'.1 := by
        intro an' hmem hout
        have hne : an'.1 ≠ d ++ [an.2] := by
          intro hcontra
          rw [hcontra, isSub_append] at hout
          simp at hout
        rw [hgk1, look_setFS, look_setFS]
        simp only [hne, if_false]
        exact hs an' (List.mem_cons_of_mem _ hmem) hout
      obtain ⟨hend, hrest, hin, hout⟩ :=
        ih gk1 (setFS (d ++ [an.2]) (.fileE c) hk) gend
          (by simpa [copyActs] using h) hInv1 hs1
      refine ⟨hend, ?_, hin, ?_⟩
      · have hone : applyAll hk [FsAction.copy an.1 (d ++ [an.2])]
            = some (setFS (d ++ [an.2]) (.fileE c) hk) := by
          simp [applyAll, hstep]
        rw [hone]
        simpa [copyActs] using hrest
      · intro q hq
        rw [hout q hq, look_setFS]
        have hqne : q ≠ d ++ [an.2] := by
          intro hcontra
          rw [hcontra, isSub_append] at hq
          simp at hq
        simp [hqne]

/-- Forward analysis of one whole block: the directory and its parent
were directories beforehand, the block directory is a directory
afterwards, and nothing outside the block subtree changes. -/
theorem blockForward (pl : Plan) (g g' : FS) (hne : pl.d ≠ [])
    (h : applyAll g (planActs pl) = some g') :
    isDirB g pl.d = true ∧ isDirB g (parentP pl.d) = true
    ∧ look g' pl.d = some .dirE
    ∧ (∀ q, isSub pl.d q = false → look g' q = look g q) := by
  unfold planActs at h
  rw [applyAll_append, coreApplyAll pl.d pl.content g hne] at h
  by_cases hcond : (isDirB g pl.d && isDirB g (parentP pl.d)) = true
  · rw [if_pos hcond] at h
    simp only [Option.some_bind] at h
    have hcond2 := hcond
    rw [Bool.and_eq_true] at hcond2
    obtain ⟨hd, hp⟩ := hcond2
    refine ⟨hd, hp, ?_, ?_⟩
    · have hpres := copyForward pl.d pl.cps _ g' h pl.d (Or.inr rfl)
      rw [hpres, look_setFS, look_setFS]
      have h1 : pl.d ≠ pl.d ++ ["index.html"] := fun hc =>
        append_singleton_ne pl.d "index.html" hc.symm
      simp [h1]
    · intro q hq
      have hqd : q ≠ pl.d := fun hc => by
        rw [hc, isSub_refl] at hq; simp at hq
      have hqidx : q ≠ pl.d ++ ["index.html"] := fun hc => by
        rw [hc, isSub_append] at hq; simp at hq
      have hpres := copyForward pl.d pl.cps _ g' h q (Or.inl hq)
      rw [hpres, look_setFS, look_setFS, look_delTree]
      simp [hqidx, hqd, hq]
  · rw [if_neg hcond] at h
    simp at h

/-- Replaying one whole block against a second state `h` that has the
block directory and sees the same parent and the same outside copy
sources: the block succeeds, writes the same contents inside the
subtree, and touches nothing outside. -/
theorem blockRun (pl : Plan) (g g' h : FS) (hne : pl.d ≠ [])
    (hrun : applyAll g (planActs pl) = some g')
    (hd : isDirB h pl.d = true)
    (hpar : look h (parentP pl.d) = look g (parentP pl.d))
    (hsrc : ∀ an ∈ pl.cps, isSub pl.d an.1 = false →
      look h an.1 = look g an.1) :
    ∃ h', applyAll h (planActs pl) = some h'
      ∧ (∀ q, isSub pl.d q = true → look h' q = look g' q)
      ∧ (∀ q, isSub pl.d q = false → look h' q = look h q) := by
  obtain ⟨hdg, hpg, _, _⟩ := blockForward pl g g' hne hrun
  unfold planActs at hrun ⊢
  rw [applyAll_append, coreApplyAll pl.d pl.content g hne,
      if_pos (by rw [Bool.and_eq_true]; exact ⟨hdg, hpg⟩)] at hrun
  simp only [Option.some_bind] at hrun
  rw [applyAll_append, coreApplyAll pl.d pl.content h hne,
      if_pos (by
        rw [Bool.and_eq_true]
        refine ⟨hd, ?_⟩
        rw [show isDirB h (parentP pl.d) = isDirB g (parentP pl.d) from
          isDirB_congr hpar]
        exact hpg)]
  simp only [Option.some_bind]
  have hInv : ∀ q, isSub pl.d q = true →
      look (setFS (pl.d ++ ["index.html"]) (.fileE pl.content)
        (setFS pl.d .dirE (delTree pl.d h))) q
      = look (setFS (pl.d ++ ["index.html"]) (.fileE pl.content)
        (setFS pl.d .dirE (delTree pl.d g))) q := by
    intro q hq
    rw [look_setFS, look_setFS, look_setFS, look_setFS, look_delTree,
        look_delTree]
    by_cases h1 : q = pl.d ++ ["index.html"]
    · simp [h1]
    · by_cases h2 : q = pl.d
      · simp [h1, h2]
      · simp [h1, h2, hq]
  have hs : ∀ an ∈ pl.cps, isSub pl.d an.1 = false →
      look (setFS (pl.d ++ ["index.html"]) (.fileE pl.content)
        (setFS pl.d .dirE (delTree pl.d h))) an.1
      = look (setFS (pl.d ++ ["index.html"]) (.fileE pl.content)
        (setFS pl.d .dirE (delTree pl.d g))) an.1 := by
    intro an hmem hout
    have h1 : an.1 ≠ pl.d ++ ["index.html"] := fun hc => by
      rw [hc, isSub_append] at hout; simp at hout
    have h2 : an.1 ≠ pl.d := fun hc => by
      rw [hc, isSub_refl] at hout; simp at hout
    rw [look_setFS, look_setFS, look_setFS, look_setFS, look_delTree,
        look_delTree]
    simp [h1, h2, hout, hsrc an hmem hout]
  obtain ⟨hend, happ, hin, hout⟩ := copyRun pl.d pl.cps _ _ g' hrun hInv hs
  refine ⟨hend, happ, hin, ?_⟩
  intro q hq
  rw [hout q hq]
  have h1 : q ≠ pl.d ++ ["index.html"] := fun hc => by
    rw [hc, isSub_append] at hq; simp at hq
  have h2 : q ≠ pl.d := fun hc => by
    rw [hc, isSub_refl] at hq; simp at hq
  rw [look_setFS, look_setFS, look_delTree]
  simp [h1, h2, hq]

/-- A successful run of whole blocks preserves every path outside all
the block subtrees. -/
theorem plansForward : ∀ (pls : List Plan) (g g1 : FS),
    (∀ pl ∈ pls, pl.d ≠ []) →
    applyAll g (plansActs pls) = some g1 →
    ∀ q, (∀ pl ∈ pls, isSub pl.d q = false) → look g1 q = look g q := by
  intro pls
  induction pls with
  | nil =>
    intro g g1 _ h q _
    simp [plansActs, applyAll] at h
    rw [h]
  | cons pl rest ih =>
    intro g g1 hne h q hq
    simp only [plansActs, List.map_cons, List.flatten_cons] at h
    rw [applyAll_append] at h
    cases h1 : applyAll g (planActs pl) with
    | none => rw [h1] at h; simp at h
    | some g' =>
      rw [h1] at h
      simp only [Option.some_bind] at h
      obtain ⟨_, _, _, hpres⟩ :=
        blockForward pl g g' (hne pl (List.mem_cons_self _ _)) h1
      rw [ih g' g1 (fun p hp => hne p (List.mem_cons_of_mem _ hp))
        (by simpa [plansActs] using h) q
        (fun p hp => hq p (List.mem_cons_of_mem _ hp))]
      exact hpres q (hq pl (List.mem_cons_self _ _))

/-- The replay induction: if a run of the blocks from `g` reached `g1`,
then running the same blocks from any state `h` that agrees with `g`
outside the destination root, with `g1` inside every block subtree, and
with `g` at the root itself, succeeds, reproduces `g1` inside every
block subtree, and changes nothing else. -/
theorem replayAll (root : Path) : ∀ (pls : List Plan) (g g1 h : FS),
    (∀ pl ∈ pls, ∃ s, pl.d = root ++ [s]) →
    pls.Pairwise (fun A B => A.d ≠ B.d) →
    (∀ pl ∈ pls, ∀ an ∈ pl.cps, isSub root an.1 = false) →
    applyAll g (plansActs pls) = some g1 →
    (∀ q, isSub root q = false → look h q = look g q) →
    (∀ pl ∈ pls, ∀ q, isSub pl.d q = true → look h q = look g1 q) →
    look h root = look g root →
    ∃ h1, applyAll h (plansActs pls) = some h1
      ∧ (∀ q, (∀ pl ∈ pls, isSub pl.d q = false) → look h1 q = look h q)
      ∧ (∀ pl ∈ pls, ∀ q, isSub pl.d q = true → look h1 q = look g1 q) := by
  intro pls
  induction pls with
  | nil =>
    intro g g1 h _ _ _ hrun hout hin hroot
    refine ⟨h, by simp [plansActs, applyAll], fun q _ => rfl, by simp⟩
  | cons pl rest ih =>
    intro g g1 h hchild hdisj hsrc hrun hout hin hroot
    obtain ⟨s, hds⟩ := hchild pl (List.mem_cons_self _ _)
    have hne : pl.d ≠ [] := by rw [hds]; exact child_ne_nil root s
    simp only [plansActs, List.map_cons, List.flatten_cons] at hrun
    rw [applyAll_append] at hrun
    cases h1 : applyAll g (planActs pl) with
    | none => rw [h1] at hrun; simp at hrun
    | some g' =>
      rw [h1] at hrun
      simp only [Option.some_bind] at hrun
      have hrunrest : applyAll g' (plansActs rest) = some g1 := by
        simpa [plansActs] using hrun
      obtain ⟨hdg, hpg, hg'd, hg'out⟩ := blockForward pl g g' hne h1
      have hrestne : ∀ pl' ∈ rest, pl'.d ≠ [] := by
        intro pl' hp'
        obtain ⟨t, hdt⟩ := hchild pl' (List.mem_cons_of_mem _ hp')
        rw [hdt]
        exact child_ne_nil root t
      have hdisjhead : ∀ pl' ∈ rest, isSub pl'.d pl.d = false := by
        intro pl' hp'
        obtain ⟨t, hdt⟩ := hchild pl' (List.mem_cons_of_mem _ hp')
        have hneq : pl.d ≠ pl'.d := (List.pairwise_cons.mp hdisj).1 pl' hp'
        have hst : s ≠ t := fun hc => hneq (by rw [hds, hdt, hc])
        rw [hdt]
        exact children_disjoint hst (by rw [← hds]; exact isSub_refl pl.d)
      have hg1d : look g1 pl.d = some .dirE := by
        rw [plansForward rest g' g1 hrestne hrunrest pl.d hdisjhead]
        exact hg'd
      have hhd : isDirB h pl.d = true := by
        have hx := hin pl (List.mem_cons_self _ _) pl.d (isSub_refl _)
        unfold isDirB
        rw [hx, hg1d]
      have hroots_not_in_d : isSub pl.d root = false := by
        rw [hds]
        exact isSub_child_parent_false root s
      have hparent : parentP pl.d = root := by
        rw [hds]
        exact parentP_child root s
      have hpareq : look h (parentP pl.d) = look g (parentP pl.d) := by
        rw [hparent]
        exact hroot
      have hsrceq : ∀ an ∈ pl.cps, isSub pl.d an.1 = false →
          look h an.1 = look g an.1 := by
        intro an hmem _
        exact hout an.1 (hsrc pl (List.mem_cons_self _ _) an hmem)
      obtain ⟨h', happh, hinh, houth⟩ :=
        blockRun pl g g' h hne h1 hhd hpareq hsrceq
      have hsub_root_of_d : ∀ q, isSub pl.d q = true → isSub root q = true := by
        intro q hq
        exact isSub_trans (by rw [hds]; exact isSub_append root [s]) hq
      have hout' : ∀ q, isSub root q = false → look h' q = look g' q := by
        intro q hq
        have hqd : isSub pl.d q = false := by
          cases hc : isSub pl.d q with
          | false => rfl
          | true => rw [hsub_root_of_d q hc] at hq; simp at hq
        rw [houth q hqd, hout q hq, ← hg'out q hqd]
      have hin' : ∀ pl' ∈ rest, ∀ q, isSub pl'.d q = true →
          look h' q = look g1 q := by
        intro pl' hp' q hq
        have hqd : isSub pl.d q = false := by
          obtain ⟨t, hdt⟩ := hchild pl' (List.mem_cons_of_mem _ hp')
          have hneq : pl.d ≠ pl'.d := (List.pairwise_cons.mp hdisj).1 pl' hp'
          have hst : t ≠ s := fun hc => hneq (by rw [hds, hdt, hc])
          rw [hds]
          exact children_disjoint hst (by rw [← hdt]; exact hq)
        rw [houth q hqd]
        exact hin pl' (List.mem_cons_of_mem _ hp') q hq
      have hroot' : look h' root = look g' root := by
        rw [houth root hroots_not_in_d, hg'out root hroots_not_in_d]
        exact hroot
      obtain ⟨h1f, happrest, houtrest, hinrest⟩ := ih g' g1 h'
        (fun p hp => hchild p (List.mem_cons_of_mem _ hp))
        (List.pairwise_cons.mp hdisj).2
        (fun p hp => hsrc p (List.mem_cons_of_mem _ hp))
        hrunrest hout' hin' hroot'
      refine ⟨h1f, ?_, ?_, ?_⟩
      · simp only [plansActs, List.map_cons, List.flatten_cons]
        rw [applyAll_append, happh]
        simp only [Option.some_bind]
        simpa [plansActs] using happrest
      · intro q hq
        rw [houtrest q (fun p hp => hq p (List.mem_cons_of_mem _ hp))]
        exact houth q (hq pl (List.mem_cons_self _ _))
      · intro pl'' hmem q hq
        rcases List.mem_cons.mp hmem with heq | hmem'
        · subst heq
          have hqrest : ∀ p ∈ rest, isSub p.d q = false := by
            intro p hp
            obtain ⟨t, hdt⟩ := hchild p (List.mem_cons_of_mem _ hp)
            have hneq : pl''.d ≠ p.d := (List.pairwise_cons.mp hdisj).1 p hp
            have hst : s ≠ t := fun hc => hneq (by rw [hds, hdt, hc])
            rw [hdt]
            exact children_disjoint hst (by rw [← hds]; exact hq)
          calc look h1f q = look h' q := houtrest q hqrest
            _ = look g' q := hinh q hq
            _ = look g1 q :=
              (plansForward rest g' g1 hrestne hrunrest q hqrest).symm
        · exact hinrest pl'' hmem' q hq

/-- Every (source, name) pair produced by the asset naming pass has its
source among the assets. -/
theorem mapM_fileName_mem : ∀ {assets : List Path} {res : List (Path × String)},
    assets.mapM (fun a => (pathFileName a).map (fun n => (a, n))) = some res →
    ∀ an ∈ res, an.1 ∈ assets := by
  intro assets
  induction assets with
  | nil =>
    intro res h an hmem
    simp [List.mapM.loop] at h
    subst h
    simp at hmem
  | cons a as ih =>
    intro res h an hmem
    rw [List.mapM_cons] at h
    cases hn : pathFileName a with
    | none => rw [hn] at h; simp at h
    | some n =>
      rw [hn] at h
      cases hm : as.mapM (fun a => (pathFileName a).map (fun n => (a, n))) with
      | none => rw [hm] at h; simp at h
      | some rest =>
        rw [hm] at h
        simp at h
        rw [← h] at hmem
        rcases List.mem_cons.mp hmem with heq | hmem'
        · rw [heq]
          exact List.mem_cons_self _ _
        · exact List.mem_cons_of_mem _ (ih hm an hmem')

/-- The block a successful `postActs` call emits, as a `Plan`. -/
theorem postActs_plan (render : String → String) (blog : Blog) (root : Path)
    (p : Post) (l : List FsAction) (h : postActs render blog root p = some l) :
    ∃ stem cps, pathFileStem p.source = some stem
      ∧ l = planActs ⟨root ++ [stem], postContent render blog p, cps⟩
      ∧ ∀ an ∈ cps, an.1 ∈ p.assets := by
  unfold postActs at h
  cases hs : pathFileStem p.source with
  | none => rw [hs] at h; simp at h
  | some stem =>
    rw [hs] at h
    simp only at h
    cases hm : p.assets.mapM (fun a => (pathFileName a).map (fun n => (a, n))) with
    | none => rw [hm] at h; simp at h
    | some assetNames =>
      rw [hm] at h
      simp only [Option.some.injEq] at h
      refine ⟨stem, assetNames, rfl, ?_, mapM_fileName_mem hm⟩
      rw [← h]
      rfl

/-- Decomposition of a successful `generate_actions` plan into blocks,
with the per-post destination directories and asset sources recorded. -/
theorem mapM_postActs_plans (render : String → String) (blog : Blog)
    (root : Path) : ∀ (posts : List Post) (lss : List (List FsAction)),
    posts.mapM (postActs render blog root) = some lss →
    ∃ pls : List Plan, lss.flatten = plansActs pls
      ∧ posts.map (fun p => (pathFileStem p.source).map (fun st => root ++ [st]))
          = pls.map (fun pl => some pl.d)
      ∧ (∀ pl ∈ pls, ∀ an ∈ pl.cps, ∃ p ∈ posts, an.1 ∈ p.assets) := by
  intro posts
  induction posts with
  | nil =>
    intro lss h
    simp [List.mapM.loop] at h
    subst h
    exact ⟨[], by simp [plansActs], by simp, by simp⟩
  | cons p ps ih =>
    intro lss h
    rw [List.mapM_cons] at h
    cases hl : postActs render blog root p with
    | none => rw [hl] at h; simp at h
    | some l =>
      rw [hl] at h
      cases hm : ps.mapM (postActs render blog root) with
      | none => rw [hm] at h; simp at h
      | some ls =>
        rw [hm] at h
        simp at h
        obtain ⟨stem, cps, hstem, hplan, hmem⟩ := postActs_plan _ _ _ _ _ hl
        obtain ⟨pls, hfl, hmap, hcps⟩ := ih ls hm
        refine ⟨⟨root ++ [stem], postContent render blog p, cps⟩ :: pls,
          ?_, ?_, ?_⟩
        · rw [← h]
          simp [plansActs, hplan, hfl]
        · simp only [List.map_cons, hstem, Option.map_some']
          rw [hmap]
        · intro pl hmem2 an hanmem
          rcases List.mem_cons.mp hmem2 with heq | hmem'
          · subst heq
            exact ⟨p, List.mem_cons_self _ _, hmem an hanmem⟩
          · obtain ⟨p', hp', ha'⟩ := hcps pl hmem' an hanmem
            exact ⟨p', List.mem_cons_of_mem _ hp', ha'⟩

/-- C8: for an unchanged Blog model (the posts have pairwise distinct
file stems — the spec's disjoint destination subdirectories — and the
asset sources lie outside the destination root), running plan plus
execute a second time succeeds and leaves the destination tree with
content identical to the first run: the state after the second run
agrees with the state after the first at every path. -/
theorem generate_rerun_identical (render : String → String) (blog : Blog)
    (root : Path) (acts : List FsAction) (fs fs1 : FS)
    (hacts : generateActions render blog root = some acts)
    (hnodup : (blog.posts.map (fun p => pathFileStem p.source)).Nodup)
    (hassets : ∀ p ∈ blog.posts, ∀ a ∈ p.assets, isSub root a = false)
    (hrun : runActions fs acts = (fs1, true)) :
    (runActions fs1 acts).2 = true
    ∧ ∀ q, look (runActions fs1 acts).1 q = look fs1 q := by
  have happly : applyAll fs acts = some fs1 := by
    have h2 : (runActions fs acts).2 = true := by rw [hrun]
    have h3 := applyAll_of_runActions h2
    rw [hrun] at h3
    simpa using h3
  unfold generateActions at hacts
  cases hmm : blog.posts.mapM (postActs render blog root) with
  | none => rw [hmm] at hacts; simp at hacts
  | some lss =>
    rw [hmm] at hacts
    simp at hacts
    obtain ⟨pls, hfl, hmap, hcps⟩ :=
      mapM_postActs_plans render blog root blog.posts lss hmm
    have heq : acts = plansActs pls := by rw [← hacts, hfl]
    rw [heq] at happly
    have hchild : ∀ pl ∈ pls, ∃ s, pl.d = root ++ [s] := by
      intro pl hp
      have hmem : some pl.d ∈ pls.map (fun pl => some pl.d) :=
        List.mem_map_of_mem _ hp
      rw [← hmap] at hmem
      obtain ⟨p, _, hpe⟩ := List.mem_map.mp hmem
      cases hst : pathFileStem p.source with
      | none => rw [hst] at hpe; simp at hpe
      | some st =>
        rw [hst] at hpe
        simp at hpe
        exact ⟨st, hpe.symm⟩
    have hplsne : ∀ pl ∈ pls, pl.d ≠ [] := by
      intro pl hp
      obtain ⟨s, hds⟩ := hchild pl hp
      rw [hds]
      exact child_ne_nil root s
    have hdisj : pls.Pairwise (fun A B => A.d ≠ B.d) := by
      have hinj : Function.Injective (fun st : String => root ++ [st]) := by
        intro a b hab
        have := List.append_cancel_left hab
        simpa using this
      have hnodup2 : (blog.posts.map (fun p =>
          (pathFileStem p.source).map (fun st => root ++ [st]))).Nodup := by
        have hcomp : (blog.posts.map (fun p =>
            (pathFileStem p.source).map (fun st => root ++ [st])))
            = (blog.posts.map (fun p => pathFileStem p.source)).map
                (Option.map (fun st => root ++ [st])) := by
          rw [List.map_map]
          rfl
        rw [hcomp]
        exact hnodup.map (Option.map_injective hinj)
      rw [hmap] at hnodup2
      have hpw := List.pairwise_map.mp hnodup2
      exact hpw.imp (fun hne heq2 => hne (by rw [heq2]))
    have hsrc : ∀ pl ∈ pls, ∀ an ∈ pl.cps, isSub root an.1 = false := by
      intro pl hp an hmem
      obtain ⟨p, hpmem, hamem⟩ := hcps pl hp an hmem
      exact hassets p hpmem an.1 hamem
    have hfsout : ∀ q, (∀ pl ∈ pls, isSub pl.d q = false) →
        look fs1 q = look fs q :=
      plansForward pls fs fs1 hplsne happly
    have hout0 : ∀ q, isSub root q = false → look fs1 q = look fs q := by
      intro q hq
      apply hfsout
      intro pl hp
      obtain ⟨s, hds⟩ := hchild pl hp
      cases hc : isSub pl.d q with
      | false => rfl
      | true =>
        exfalso
        have : isSub root q = true := by
          rw [hds] at hc
          exact isSub_trans (isSub_append root [s]) hc
        rw [this] at hq
        simp at hq
    have hroot0 : look fs1 root = look fs root := by
      apply hfsout
      intro pl hp
      obtain ⟨s, hds⟩ := hchild pl hp
      rw [hds]
      exact isSub_child_parent_false root s
    obtain ⟨h1, happ1, hout1, hin1⟩ := replayAll root pls fs fs1 fs1
      hchild hdisj hsrc happly hout0 (fun pl hp q hq => rfl) hroot0
    have hrun2 : runActions fs1 (plansActs pls) = (h1, true) :=
      runActions_of_applyAll happ1
    constructor
    · rw [heq, hrun2]
    · intro q
      rw [heq, hrun2]
      by_cases hcase : ∀ pl ∈ pls, isSub pl.d q = false
      · exact hout1 q hcase
      · push_neg at hcase
        obtain ⟨pl, hp, hq⟩ := hcase
        exact hin1 pl hp q (by simpa using hq)

/-- Witness for `generate_rerun_identical`: the test blog generated into
`dist`, starting from a state where `dist` and `dist/test_post` exist
(the first run can only succeed when each post directory already exists,
since `remove_dir_all` errs on a missing path even with
`not_exists_ok`). -/
theorem generate_rerun_identical_witness :
    (generateActions (fun s => s) testBlog ["dist"]
        = some ((generateActions (fun s => s) testBlog ["dist"]).getD [])
      ∧ (testBlog.posts.map (fun p => pathFileStem p.source)).Nodup
      ∧ (∀ p ∈ testBlog.posts, ∀ a ∈ p.assets, isSub ["dist"] a = false)
      ∧ runActions [(["dist"], .dirE), (["dist", "test_post"], .dirE)]
          ((generateActions (fun s => s) testBlog ["dist"]).getD [])
        = ((runActions [(["dist"], .dirE), (["dist", "test_post"], .dirE)]
            ((generateActions (fun s => s) testBlog ["dist"]).getD [])).1,
           true))
    ∧ ((runActions
          (runActions [(["dist"], .dirE), (["dist", "test_post"], .dirE)]
            ((generateActions (fun s => s) testBlog ["dist"]).getD [])).1
          ((generateActions (fun s => s) testBlog ["dist"]).getD [])).2 = true
      ∧ ∀ q, look (runActions
          (runActions [(["dist"], .dirE), (["dist", "test_post"], .dirE)]
            ((generateActions (fun s => s) testBlog ["dist"]).getD [])).1
          ((generateActions (fun s => s) testBlog ["dist"]).getD [])).1 q
        = look (runActions [(["dist"], .dirE), (["dist", "test_post"], .dirE)]
            ((generateActions (fun s => s) testBlog ["dist"]).getD [])).1 q) := by
  refine ⟨⟨by decide, by decide, by decide, by decide⟩, ?_⟩
  exact generate_rerun_identical (fun s => s) testBlog ["dist"]
    ((generateActions (fun s => s) testBlog ["dist"]).getD [])
    [(["dist"], .dirE), (["dist", "test_post"], .dirE)]
    (runActions [(["dist"], .dirE), (["dist", "test_post"], .dirE)]
      ((generateActions (fun s => s) testBlog ["dist"]).getD [])).1
    (by decide) (by decide) (by decide) (by decide)

end Pagong
